import Mathlib

/-!
Verification of the nano_rag retrieval pipeline.

Shallow embedding of the core retrieval, caching, ingestion and query
orchestration logic of the nano_rag repository:

* `retrievers/ensemble_local.py` — `EnsembleRetriever._get_relevant_documents`
  (weighted reciprocal rank fusion with per-retriever fault tolerance);
* `retrievers/hybrid.py` — `HybridRetriever.__init__` validation;
* `services/cache_service.py` — `SemanticCacheService.lookup` with its strict
  L2-distance threshold;
* `services/ingestion_service.py` — `IngestionService.run` (change detection,
  commit-at-the-end metadata persistence, early exit on no change);
* `services/query_service.py` — `QueryService.ask` (blocking mode) and
  `QueryService.ask_stream` (streaming event generator), modelled as a
  function from the outcomes of the awaited sub-calls to the trace of
  performed actions and emitted events.

Machine floats of the source are modelled by rationals (`ℚ`); Python
exceptions are modelled by `Except`/`Option` results of the corresponding
calls; Python dicts (which preserve insertion order) are modelled by
association lists where insertion updates in place and appends fresh keys
at the end.
-/

/-- A LangChain document: the text (`page_content`) plus a tag standing for
its metadata, so that two documents with identical text need not be equal. -/
structure Doc where
  page_content : String
  meta : String
deriving DecidableEq, Repr

/-! ## Weighted reciprocal rank fusion
`EnsembleRetriever._get_relevant_documents` (ensemble_local.py, lines 25-74).
The `doc_scores` dict maps `doc.page_content` to a record holding the running
score and the first document seen with that content. -/

/-- One value of the Python `doc_scores` dict together with its key. -/
structure FusionEntry where
  key : String
  score : ℚ
  doc : Doc
deriving DecidableEq, Repr

/-- `doc_scores[doc_key]["score"] += score` when the key is present, else
`doc_scores[doc_key] = {"score": score, "doc": doc}` (a Python dict keeps
insertion order: an update is in place, a fresh key goes to the end). -/
def addDoc : List FusionEntry → String → ℚ → Doc → List FusionEntry
  | [], k, s, d => [⟨k, s, d⟩]
  | e :: rest, k, s, d =>
    if e.key = k then ⟨e.key, e.score + s, e.doc⟩ :: rest
    else e :: addDoc rest k s d

/-- The inner loop `for rank, doc in enumerate(docs)` of the fusion, with the
running 0-based rank made explicit: each document contributes
`current_weight * (1.0 / (rank + 1))` to the score at key `doc.page_content`. -/
def scoreDocsAux (w : ℚ) : ℕ → List FusionEntry → List Doc → List FusionEntry
  | _, acc, [] => acc
  | rank, acc, d :: ds =>
    scoreDocsAux w (rank + 1) (addDoc acc d.page_content (w * (1 / ((rank : ℚ) + 1))) d) ds

/-- The whole `for retriever_idx, docs in enumerate(all_docs_by_retriever)`
loop: weights are read off positionally, so the lists are zipped. -/
def accumulateScores (lists : List (List Doc)) (weights : List ℚ) : List FusionEntry :=
  (lists.zip weights).foldl (fun acc lw => scoreDocsAux lw.2 0 acc lw.1) []

/-- Insert an entry into a list sorted by descending score, in front of the
first element whose score is not larger. -/
def insertByScoreDesc (e : FusionEntry) : List FusionEntry → List FusionEntry
  | [] => [e]
  | x :: xs => if x.score ≤ e.score then e :: x :: xs else x :: insertByScoreDesc e xs

/-- Python's `sorted(doc_scores.values(), key=lambda x: x["score"], reverse=True)`:
a stable sort by descending score (ties keep the original order).  Embedded as
stable insertion sort, which computes exactly that function. -/
def pySortedByScoreDesc : List FusionEntry → List FusionEntry
  | [] => []
  | e :: rest => insertByScoreDesc e (pySortedByScoreDesc rest)

/-- The sorted entry list the fusion builds just before projecting out the
documents (ensemble_local.py, lines 45-72). -/
def fuseEntries (lists : List (List Doc)) (weights : List ℚ) : List FusionEntry :=
  pySortedByScoreDesc (accumulateScores lists weights)

/-- `return [item["doc"] for item in sorted_docs]` — the fused document list. -/
def ensembleFuse (lists : List (List Doc)) (weights : List ℚ) : List Doc :=
  (fuseEntries lists weights).map (fun e => e.doc)

/-- Lines 33-41 of ensemble_local.py: each retriever is invoked inside
`try/except`; a raising retriever (`none`) contributes an empty list. -/
def gatherRetrieverResults (results : List (Option (List Doc))) : List (List Doc) :=
  results.map (fun r => r.getD [])

/-- `EnsembleRetriever._get_relevant_documents`, taking the outcome of each
retriever invocation (`none` = the call raised) as input. -/
def ensembleGetRelevantDocuments (results : List (Option (List Doc)))
    (weights : List ℚ) : List Doc :=
  ensembleFuse (gatherRetrieverResults results) weights

/-! Specification-side score formula: the total score of a content key is the
sum, over every source list and every 0-based rank at which a document with
that content sits in the list, of `weight * (1 / (rank + 1))`. -/

/-- Sum of `w / (rank + 1)` over the positions of key `k` in one list,
counting ranks from `rank`. -/
def listKeyScoreAux (w : ℚ) (k : String) : ℕ → List Doc → ℚ
  | _, [] => 0
  | rank, d :: ds =>
    (if d.page_content = k then w * (1 / ((rank : ℚ) + 1)) else 0)
      + listKeyScoreAux w k (rank + 1) ds

/-- Total weighted reciprocal-rank score of content key `k` over all source
lists, weights read off positionally. -/
def totalKeyScore (lists : List (List Doc)) (weights : List ℚ) (k : String) : ℚ :=
  ((lists.zip weights).map (fun lw => listKeyScoreAux lw.2 k 0 lw.1)).sum

/-- The score an entry list assigns to key `k` (sum over entries with that
key; with nodup keys this is the unique entry's score, and `0` if absent). -/
def entryScore (acc : List FusionEntry) (k : String) : ℚ :=
  ((acc.filter (fun e => e.key = k)).map (fun e => e.score)).sum

section FusionLemmas

theorem entryScore_nil (k : String) : entryScore [] k = 0 := rfl

theorem entryScore_cons (e : FusionEntry) (l : List FusionEntry) (k : String) :
    entryScore (e :: l) k = (if e.key = k then e.score else 0) + entryScore l k := by
  by_cases h : e.key = k <;> simp [entryScore, h]

theorem entryScore_addDoc (acc : List FusionEntry) (k : String) (s : ℚ) (d : Doc)
    (k' : String) :
    entryScore (addDoc acc k s d) k' = entryScore acc k' + (if k = k' then s else 0) := by
  induction acc with
  | nil => by_cases h : k = k' <;> simp [addDoc, entryScore_cons, entryScore_nil, h]
  | cons e rest ih =>
    by_cases hek : e.key = k
    · subst hek
      by_cases h : e.key = k' <;>
        simp [addDoc, entryScore_cons, h] <;> ring
    · simp [addDoc, hek, entryScore_cons, ih]
      ring

theorem entryScore_scoreDocsAux (w : ℚ) (docs : List Doc) :
    ∀ (rank : ℕ) (acc : List FusionEntry) (k : String),
      entryScore (scoreDocsAux w rank acc docs) k
        = entryScore acc k + listKeyScoreAux w k rank docs := by
  induction docs with
  | nil => intro rank acc k; simp [scoreDocsAux, listKeyScoreAux]
  | cons d ds ih =>
    intro rank acc k
    simp only [scoreDocsAux, listKeyScoreAux, ih, entryScore_addDoc]
    by_cases h : d.page_content = k <;> simp [h] <;> ring

theorem entryScore_accumulate (lists : List (List Doc)) (weights : List ℚ) (k : String) :
    entryScore (accumulateScores lists weights) k = totalKeyScore lists weights k := by
  suffices h : ∀ (pairs : List (List Doc × ℚ)) (acc : List FusionEntry),
      entryScore (pairs.foldl (fun acc lw => scoreDocsAux lw.2 0 acc lw.1) acc) k
        = entryScore acc k + ((pairs.map (fun lw => listKeyScoreAux lw.2 k 0 lw.1)).sum) by
    simpa [accumulateScores, totalKeyScore, entryScore_nil] using h (lists.zip weights) []
  intro pairs
  induction pairs with
  | nil => intro acc; simp
  | cons p ps ih =>
    intro acc
    simp [List.foldl_cons, ih, entryScore_scoreDocsAux]
    ring

end FusionLemmas

section SortLemmas

theorem insertByScoreDesc_perm (e : FusionEntry) (l : List FusionEntry) :
    List.Perm (insertByScoreDesc e l) (e :: l) := by
  induction l with
  | nil => simp [insertByScoreDesc]
  | cons x xs ih =>
    by_cases h : x.score ≤ e.score
    · simp [insertByScoreDesc, h]
    · simp only [insertByScoreDesc, h, if_false]
      exact ((ih.cons x).trans (List.Perm.swap e x xs))

theorem pySortedByScoreDesc_perm (l : List FusionEntry) :
    List.Perm (pySortedByScoreDesc l) l := by
  induction l with
  | nil => simp [pySortedByScoreDesc]
  | cons e rest ih =>
    exact (insertByScoreDesc_perm e (pySortedByScoreDesc rest)).trans (ih.cons e)

theorem insertByScoreDesc_pairwise (e : FusionEntry) (l : List FusionEntry)
    (h : l.Pairwise (fun a b => b.score ≤ a.score)) :
    (insertByScoreDesc e l).Pairwise (fun a b => b.score ≤ a.score) := by
  induction l with
  | nil => simp [insertByScoreDesc]
  | cons x xs ih =>
    rcases List.pairwise_cons.mp h with ⟨hx, hxs⟩
    by_cases hle : x.score ≤ e.score
    · rw [show insertByScoreDesc e (x :: xs) = e :: x :: xs by
        simp [insertByScoreDesc, hle]]
      refine List.pairwise_cons.mpr ⟨?_, h⟩
      intro y hy
      rcases List.mem_cons.mp hy with rfl | hy
      · exact hle
      · exact le_trans (hx y hy) hle
    · rw [show insertByScoreDesc e (x :: xs) = x :: insertByScoreDesc e xs by
        simp [insertByScoreDesc, hle]]
      refine List.pairwise_cons.mpr ⟨?_, ih hxs⟩
      intro y hy
      have hy' := (insertByScoreDesc_perm e xs).mem_iff.mp hy
      rcases List.mem_cons.mp hy' with rfl | hy'
      · exact le_of_not_le hle
      · exact hx y hy'

theorem pySortedByScoreDesc_pairwise (l : List FusionEntry) :
    (pySortedByScoreDesc l).Pairwise (fun a b => b.score ≤ a.score) := by
  induction l with
  | nil => simp [pySortedByScoreDesc]
  | cons e rest ih => exact insertByScoreDesc_pairwise e _ ih

/-- The insertion point: the inserted element lands after exactly the longest
leading run of strictly larger scores, which keeps the sort stable. -/
theorem insertByScoreDesc_split (e : FusionEntry) (l : List FusionEntry) :
    ∃ l₁ l₂, insertByScoreDesc e l = l₁ ++ e :: l₂ ∧ l = l₁ ++ l₂
      ∧ ∀ y ∈ l₁, e.score < y.score := by
  induction l with
  | nil => exact ⟨[], [], by simp [insertByScoreDesc]⟩
  | cons x xs ih =>
    by_cases hle : x.score ≤ e.score
    · exact ⟨[], x :: xs, by simp [insertByScoreDesc, hle]⟩
    · rcases ih with ⟨l₁, l₂, h1, h2, h3⟩
      refine ⟨x :: l₁, l₂, ?_, by simp [h2], ?_⟩
      · simp [insertByScoreDesc, hle, h1]
      · intro y hy
        rcases List.mem_cons.mp hy with rfl | hy
        · exact lt_of_not_le hle
        · exact h3 y hy

theorem sublist_insertByScoreDesc (e : FusionEntry) {s l : List FusionEntry}
    (h : s.Sublist l) : s.Sublist (insertByScoreDesc e l) := by
  rcases insertByScoreDesc_split e l with ⟨l₁, l₂, h1, h2, -⟩
  rw [h1]
  exact (h2 ▸ h).trans
    ((List.append_sublist_append_left l₁).mpr (List.sublist_cons_self e l₂))

/-- Stability of the embedded sort: two entries that sit in the dict in
insertion order `a` before `b`, with `b`'s score not above `a`'s, appear in
the same order after sorting. -/
theorem pySortedByScoreDesc_stable {a b : FusionEntry} {l : List FusionEntry}
    (hab : [a, b].Sublist l) (hle : b.score ≤ a.score) :
    [a, b].Sublist (pySortedByScoreDesc l) := by
  induction l with
  | nil => cases hab
  | cons x xs ih =>
    rcases List.sublist_cons_iff.mp hab with h | ⟨r, hr, hs⟩
    · exact sublist_insertByScoreDesc x (ih h)
    · obtain ⟨ha, hr2⟩ := (List.cons.injEq a [b] x r).mp hr
      subst ha
      subst hr2
      have hb_mem : b ∈ pySortedByScoreDesc xs :=
        ((pySortedByScoreDesc_perm xs).mem_iff).mpr (List.singleton_sublist.mp hs)
      rcases insertByScoreDesc_split a (pySortedByScoreDesc xs) with ⟨l₁, l₂, h1, h2, h3⟩
      rw [show pySortedByScoreDesc (a :: xs)
            = insertByScoreDesc a (pySortedByScoreDesc xs) from rfl, h1]
      have hb2 : b ∈ l₂ := by
        rcases List.mem_append.mp (h2 ▸ hb_mem) with hmem | hmem
        · exact absurd (h3 b hmem) (not_lt.mpr hle)
        · exact hmem
      have h4 : [a, b].Sublist (a :: l₂) :=
        List.cons_sublist_cons.mpr (List.singleton_sublist.mpr hb2)
      exact h4.trans (List.sublist_append_right l₁ (a :: l₂))

/-- Sorting a list already sorted by descending score leaves it unchanged. -/
theorem pySortedByScoreDesc_of_pairwise {l : List FusionEntry}
    (h : l.Pairwise (fun a b => b.score ≤ a.score)) :
    pySortedByScoreDesc l = l := by
  induction l with
  | nil => rfl
  | cons e rest ih =>
    rcases List.pairwise_cons.mp h with ⟨he, hrest⟩
    have hr : pySortedByScoreDesc rest = rest := ih hrest
    show insertByScoreDesc e (pySortedByScoreDesc rest) = e :: rest
    rw [hr]
    cases rest with
    | nil => rfl
    | cons x xs => simp [insertByScoreDesc, he x (by simp)]

end SortLemmas

section KeyLemmas

/-- Keys of the dict after one insertion: unchanged when the key is present,
appended at the end when it is fresh. -/
theorem addDoc_keys (acc : List FusionEntry) (k : String) (s : ℚ) (d : Doc) :
    (addDoc acc k s d).map (fun e => e.key)
      = if k ∈ acc.map (fun e => e.key) then acc.map (fun e => e.key)
        else acc.map (fun e => e.key) ++ [k] := by
  induction acc with
  | nil => simp [addDoc]
  | cons e rest ih =>
    by_cases hek : e.key = k
    · simp [addDoc, hek]
    · have hne : ¬ k = e.key := fun h => hek h.symm
      by_cases hmem : k ∈ rest.map (fun e => e.key) <;>
        simp [addDoc, hek, ih, hmem, hne]

theorem addDoc_keys_nodup {acc : List FusionEntry} (k : String) (s : ℚ) (d : Doc)
    (h : (acc.map (fun e => e.key)).Nodup) :
    ((addDoc acc k s d).map (fun e => e.key)).Nodup := by
  rw [addDoc_keys]
  by_cases hmem : k ∈ acc.map (fun e => e.key)
  · simpa [hmem] using h
  · rw [if_neg hmem, List.nodup_append]
    refine ⟨h, List.nodup_singleton k, ?_⟩
    intro x hx hk
    simp only [List.mem_singleton] at hk
    exact hmem (hk ▸ hx)

theorem scoreDocsAux_keys_nodup (w : ℚ) (docs : List Doc) :
    ∀ (rank : ℕ) {acc : List FusionEntry},
      (acc.map (fun e => e.key)).Nodup →
      ((scoreDocsAux w rank acc docs).map (fun e => e.key)).Nodup := by
  induction docs with
  | nil => intro rank acc h; exact h
  | cons d ds ih =>
    intro rank acc h
    exact ih (rank + 1) (addDoc_keys_nodup _ _ _ h)

theorem accumulateScores_keys_nodup (lists : List (List Doc)) (weights : List ℚ) :
    ((accumulateScores lists weights).map (fun e => e.key)).Nodup := by
  suffices h : ∀ (pairs : List (List Doc × ℚ)) (acc : List FusionEntry),
      (acc.map (fun e => e.key)).Nodup →
      ((pairs.foldl (fun acc lw => scoreDocsAux lw.2 0 acc lw.1) acc).map
        (fun e => e.key)).Nodup by
    exact h (lists.zip weights) [] (by simp)
  intro pairs
  induction pairs with
  | nil => intro acc h; exact h
  | cons p ps ih =>
    intro acc h
    exact ih _ (scoreDocsAux_keys_nodup _ _ _ h)

theorem fuseEntries_keys_nodup (lists : List (List Doc)) (weights : List ℚ) :
    ((fuseEntries lists weights).map (fun e => e.key)).Nodup := by
  have hperm := (pySortedByScoreDesc_perm (accumulateScores lists weights)).map
    (fun e => e.key)
  exact hperm.nodup_iff.mpr (accumulateScores_keys_nodup lists weights)

theorem entryScore_of_perm {l l' : List FusionEntry} (h : List.Perm l l')
    (k : String) : entryScore l k = entryScore l' k := by
  unfold entryScore
  exact ((h.filter _).map _).sum_eq

end KeyLemmas

section FreshKeyLemmas

/-- The entry list produced by scoring a run of documents with pairwise
distinct contents, none of which was seen before: one entry per document,
in list order, scored `w * (1 / (rank + 1))`. -/
def rankedEntries (w : ℚ) : ℕ → List Doc → List FusionEntry
  | _, [] => []
  | rank, d :: ds =>
    ⟨d.page_content, w * (1 / ((rank : ℚ) + 1)), d⟩ :: rankedEntries w (rank + 1) ds

theorem addDoc_fresh {acc : List FusionEntry} {k : String} (s : ℚ) (d : Doc)
    (h : k ∉ acc.map (fun e => e.key)) :
    addDoc acc k s d = acc ++ [⟨k, s, d⟩] := by
  induction acc with
  | nil => rfl
  | cons e rest ih =>
    have hek : ¬ e.key = k := by
      intro hk
      exact h (by simp [hk])
    simp only [addDoc, hek, if_false, List.cons_append, List.cons.injEq, true_and]
    exact ih (fun hm => h (by simp [hm]))

theorem scoreDocsAux_fresh (w : ℚ) (docs : List Doc) :
    ∀ (rank : ℕ) (acc : List FusionEntry),
      (docs.map (fun d => d.page_content)).Nodup →
      (∀ d ∈ docs, d.page_content ∉ acc.map (fun e => e.key)) →
      scoreDocsAux w rank acc docs = acc ++ rankedEntries w rank docs := by
  induction docs with
  | nil => intro rank acc _ _; simp [scoreDocsAux, rankedEntries]
  | cons d ds ih =>
    intro rank acc hnd hfresh
    have hd : d.page_content ∉ acc.map (fun e => e.key) := hfresh d (by simp)
    simp only [scoreDocsAux, addDoc_fresh _ d hd]
    rw [ih (rank + 1) _ ((List.nodup_cons.mp hnd).2) ?_]
    · simp [rankedEntries]
    · intro d' hd'
      simp only [List.map_append, List.mem_append]
      rintro (hm | hm)
      · exact hfresh d' (by simp [hd']) hm
      · have heq : d'.page_content = d.page_content := by simpa using hm
        have hmem2 : d'.page_content ∈ ds.map (fun d => d.page_content) :=
          List.mem_map_of_mem _ hd'
        rw [heq] at hmem2
        exact (List.nodup_cons.mp hnd).1 hmem2

theorem rankedEntries_score_mem (w : ℚ) (docs : List Doc) :
    ∀ (rank : ℕ) (e : FusionEntry), e ∈ rankedEntries w rank docs →
      ∃ q : ℕ, rank ≤ q ∧ e.score = w * (1 / ((q : ℚ) + 1)) := by
  induction docs with
  | nil => intro rank e h; simp [rankedEntries] at h
  | cons d ds ih =>
    intro rank e h
    rcases List.mem_cons.mp h with rfl | h
    · exact ⟨rank, le_refl _, rfl⟩
    · rcases ih (rank + 1) e h with ⟨q, hq, hs⟩
      exact ⟨q, le_trans (Nat.le_succ rank) hq, hs⟩

theorem rankedEntries_pairwise (w : ℚ) (hw : 0 ≤ w) (docs : List Doc) :
    ∀ rank : ℕ, (rankedEntries w rank docs).Pairwise (fun a b => b.score ≤ a.score) := by
  induction docs with
  | nil => intro rank; simp [rankedEntries]
  | cons d ds ih =>
    intro rank
    refine List.pairwise_cons.mpr ⟨?_, ih (rank + 1)⟩
    intro e he
    rcases rankedEntries_score_mem w ds (rank + 1) e he with ⟨q, hq, hs⟩
    rw [hs]
    show w * (1 / ((q : ℚ) + 1)) ≤ w * (1 / ((rank : ℚ) + 1))
    have h1 : ((rank : ℚ) + 1) ≤ ((q : ℚ) + 1) := by
      have : (rank : ℚ) ≤ (q : ℚ) := by exact_mod_cast le_trans (Nat.le_succ rank) hq
      linarith
    have h2 : (0 : ℚ) < (rank : ℚ) + 1 := by positivity
    exact mul_le_mul_of_nonneg_left (one_div_le_one_div_of_le h2 h1) hw

theorem rankedEntries_map_doc (w : ℚ) (docs : List Doc) :
    ∀ rank : ℕ, (rankedEntries w rank docs).map (fun e => e.doc) = docs := by
  induction docs with
  | nil => intro rank; rfl
  | cons d ds ih => intro rank; simp [rankedEntries, ih]

end FreshKeyLemmas

/-! ## Claim C1: weighted reciprocal rank fusion -/

/-- C1: for every collection of ranked lists with an equal-length weight list,
the fused entry list assigns every content key the total score
`Σ_i Σ_{ranks r of the key in list i} weights_i * 1/(r+1)` (contributions are
accumulated per identical `page_content`, each key kept once), and is sorted
by total score descending with ties kept in dict-insertion order (stable
sort); the returned documents are the entries' documents in that order. -/
theorem ensemble_weighted_rrf_correct (lists : List (List Doc)) (weights : List ℚ)
    (h : lists.length = weights.length) :
    (∀ k : String,
      entryScore (fuseEntries lists weights) k = totalKeyScore lists weights k)
    ∧ ((fuseEntries lists weights).map (fun e => e.key)).Nodup
    ∧ (fuseEntries lists weights).Pairwise (fun a b => b.score ≤ a.score)
    ∧ (∀ a b : FusionEntry, [a, b].Sublist (accumulateScores lists weights) →
        a.score = b.score → [a, b].Sublist (fuseEntries lists weights))
    ∧ ensembleFuse lists weights = (fuseEntries lists weights).map (fun e => e.doc) := by
  refine ⟨?_, fuseEntries_keys_nodup _ _, pySortedByScoreDesc_pairwise _, ?_, rfl⟩
  · intro k
    unfold fuseEntries
    rw [entryScore_of_perm (pySortedByScoreDesc_perm _) k]
    exact entryScore_accumulate lists weights k
  · intro a b hab heq
    exact pySortedByScoreDesc_stable hab (le_of_eq heq.symm)

def fusDocA : Doc := ⟨"A", "vec"⟩

def fusDocB : Doc := ⟨"B", "vec"⟩

def fusDocC : Doc := ⟨"C", "lex"⟩

def fusDocD : Doc := ⟨"D", "lex"⟩

/-- C1 witness: the two-retriever example of the claim. Disjoint lists
`[A, B]` with weight `0.6` and `[C, D]` with weight `0.4` fuse to
`A (0.6), C (0.4), B (0.3), D (0.2)`. -/
theorem ensemble_weighted_rrf_correct_witness :
    ([[fusDocA, fusDocB], [fusDocC, fusDocD]] : List (List Doc)).length
        = ([6/10, 4/10] : List ℚ).length
    ∧ entryScore (fuseEntries [[fusDocA, fusDocB], [fusDocC, fusDocD]] [6/10, 4/10]) "A"
        = totalKeyScore [[fusDocA, fusDocB], [fusDocC, fusDocD]] [6/10, 4/10] "A"
    ∧ fuseEntries [[fusDocA, fusDocB], [fusDocC, fusDocD]] [6/10, 4/10]
        = [⟨"A", 6/10, fusDocA⟩, ⟨"C", 4/10, fusDocC⟩,
           ⟨"B", 3/10, fusDocB⟩, ⟨"D", 2/10, fusDocD⟩]
    ∧ ensembleFuse [[fusDocA, fusDocB], [fusDocC, fusDocD]] [6/10, 4/10]
        = [fusDocA, fusDocC, fusDocB, fusDocD] := by
  refine ⟨rfl, (ensemble_weighted_rrf_correct _ _ rfl).1 "A", ?_, ?_⟩
  · norm_num [fuseEntries, accumulateScores, scoreDocsAux, addDoc, pySortedByScoreDesc,
      insertByScoreDesc, fusDocA, fusDocB, fusDocC, fusDocD]
  · norm_num [ensembleFuse, fuseEntries, accumulateScores, scoreDocsAux, addDoc,
      pySortedByScoreDesc, insertByScoreDesc, fusDocA, fusDocB, fusDocC, fusDocD]

/-! ## Claim C4: fusion fault tolerance -/

theorem gather_set_none {results : List (Option (List Doc))} {i : ℕ}
    (h : results[i]? = some none) :
    gatherRetrieverResults (results.set i (some [])) = gatherRetrieverResults results := by
  induction results generalizing i with
  | nil => simp at h
  | cons r rs ih =>
    cases i with
    | zero =>
      simp only [List.getElem?_cons_zero, Option.some.injEq] at h
      subst h
      simp [gatherRetrieverResults]
    | succ n =>
      simp only [List.getElem?_cons_succ] at h
      simp only [List.set_cons_succ, gatherRetrieverResults, List.map_cons]
      have := ih h
      simp only [gatherRetrieverResults] at this
      rw [this]

theorem accumulate_single_fresh {docs : List Doc} (w1 w2 : ℚ)
    (hnd : (docs.map (fun d => d.page_content)).Nodup) :
    accumulateScores (gatherRetrieverResults [none, some docs]) [w1, w2]
      = rankedEntries w2 0 docs := by
  show scoreDocsAux w2 0 (scoreDocsAux w1 0 [] []) docs = rankedEntries w2 0 docs
  rw [show scoreDocsAux w1 0 ([] : List FusionEntry) [] = [] from rfl]
  rw [scoreDocsAux_fresh w2 docs 0 [] hnd (by intro d _; simp)]
  simp

theorem accumulate_single_fresh' {docs : List Doc} (w1 w2 : ℚ)
    (hnd : (docs.map (fun d => d.page_content)).Nodup) :
    accumulateScores (gatherRetrieverResults [some docs, none]) [w1, w2]
      = rankedEntries w1 0 docs := by
  show accumulateScores [docs, []] [w1, w2] = rankedEntries w1 0 docs
  show scoreDocsAux w2 0 (scoreDocsAux w1 0 [] docs) []
      = rankedEntries w1 0 docs
  rw [show ∀ acc : List FusionEntry, scoreDocsAux w2 0 acc [] = acc from fun _ => rfl]
  rw [scoreDocsAux_fresh w1 docs 0 [] hnd (by intro d _; simp)]
  simp

/-- C4 (amended): a raising retriever is replaced by the empty list and the
fusion proceeds (first conjunct, for any arity); in a 2-retriever fusion where
one retriever throws, the fused result equals the surviving retriever's ranked
list in its original order with scores `weight * 1/(rank+1)` — PROVIDED that
list has pairwise distinct `page_content`s and the weight is nonnegative
(otherwise the fusion's content-keyed dedup / score re-sort may reorder it,
see the counterexample). -/
theorem ensemble_fault_tolerance (results : List (Option (List Doc)))
    (weights : List ℚ) (i : ℕ) (docs : List Doc) (w1 w2 : ℚ) :
    (results[i]? = some none →
      ensembleGetRelevantDocuments results weights
        = ensembleGetRelevantDocuments (results.set i (some [])) weights)
    ∧ ((docs.map (fun d => d.page_content)).Nodup → 0 ≤ w2 →
        fuseEntries (gatherRetrieverResults [none, some docs]) [w1, w2]
          = rankedEntries w2 0 docs
        ∧ ensembleGetRelevantDocuments [none, some docs] [w1, w2] = docs)
    ∧ ((docs.map (fun d => d.page_content)).Nodup → 0 ≤ w1 →
        fuseEntries (gatherRetrieverResults [some docs, none]) [w1, w2]
          = rankedEntries w1 0 docs
        ∧ ensembleGetRelevantDocuments [some docs, none] [w1, w2] = docs) := by
  refine ⟨?_, ?_, ?_⟩
  · intro h
    unfold ensembleGetRelevantDocuments
    rw [gather_set_none h]
  · intro hnd hw
    have hacc := @accumulate_single_fresh docs w1 w2 hnd
    have hfuse : fuseEntries (gatherRetrieverResults [none, some docs]) [w1, w2]
        = rankedEntries w2 0 docs := by
      unfold fuseEntries
      rw [hacc]
      exact pySortedByScoreDesc_of_pairwise (rankedEntries_pairwise w2 hw docs 0)
    refine ⟨hfuse, ?_⟩
    show ensembleFuse (gatherRetrieverResults [none, some docs]) [w1, w2] = docs
    unfold ensembleFuse
    rw [hfuse]
    exact rankedEntries_map_doc w2 docs 0
  · intro hnd hw
    have hacc := @accumulate_single_fresh' docs w1 w2 hnd
    have hfuse : fuseEntries (gatherRetrieverResults [some docs, none]) [w1, w2]
        = rankedEntries w1 0 docs := by
      unfold fuseEntries
      rw [hacc]
      exact pySortedByScoreDesc_of_pairwise (rankedEntries_pairwise w1 hw docs 0)
    refine ⟨hfuse, ?_⟩
    show ensembleFuse (gatherRetrieverResults [some docs, none]) [w1, w2] = docs
    unfold ensembleFuse
    rw [hfuse]
    exact rankedEntries_map_doc w1 docs 0

def faultDocE : Doc := ⟨"E", "vec"⟩

def faultDocF : Doc := ⟨"F", "vec"⟩

/-- C4 witness: with the first retriever raising and the second returning
`[E, F]` (distinct contents) under weight `0.4`, the fused result is `[E, F]`
with scores `0.4` and `0.2`. -/
theorem ensemble_fault_tolerance_witness :
    (([none, some [faultDocE, faultDocF]] : List (Option (List Doc)))[0]? = some none)
    ∧ ensembleGetRelevantDocuments [none, some [faultDocE, faultDocF]] [6/10, 4/10]
        = ensembleGetRelevantDocuments
            (([none, some [faultDocE, faultDocF]] :
              List (Option (List Doc))).set 0 (some [])) [6/10, 4/10]
    ∧ (([faultDocE, faultDocF] : List Doc).map (fun d => d.page_content)).Nodup
    ∧ ensembleGetRelevantDocuments [none, some [faultDocE, faultDocF]] [6/10, 4/10]
        = [faultDocE, faultDocF]
    ∧ fuseEntries (gatherRetrieverResults [none, some [faultDocE, faultDocF]])
        [6/10, 4/10]
        = [⟨"E", 4/10, faultDocE⟩, ⟨"F", 2/10, faultDocF⟩] := by
  have h0 : (([none, some [faultDocE, faultDocF]] :
      List (Option (List Doc))))[0]? = some none := rfl
  have hnd : (([faultDocE, faultDocF] : List Doc).map
      (fun d => d.page_content)).Nodup := by
    simp [faultDocE, faultDocF]
  have hw : (0 : ℚ) ≤ 4/10 := by norm_num
  have ht := ensemble_fault_tolerance [none, some [faultDocE, faultDocF]]
    [6/10, 4/10] 0 [faultDocE, faultDocF] (6/10) (4/10)
  refine ⟨h0, ht.1 h0, hnd, (ht.2.1 hnd hw).2, ?_⟩
  rw [(ht.2.1 hnd hw).1]
  norm_num [rankedEntries, faultDocE, faultDocF]

def dupDocX : Doc := ⟨"x", "chunk-from-pdf"⟩

def dupDocY : Doc := ⟨"x", "chunk-from-txt"⟩

/-- C4 counterexample: the claim as stated fails when the surviving
retriever's list contains two documents with identical `page_content`: the
content-keyed dedup collapses them, so the fused result is `[X]` and not the
original list `[X, Y]`. -/
theorem ensemble_fault_tolerance_counterexample :
    ensembleGetRelevantDocuments [none, some [dupDocX, dupDocY]] [6/10, 4/10]
      = [dupDocX]
    ∧ ensembleGetRelevantDocuments [none, some [dupDocX, dupDocY]] [6/10, 4/10]
      ≠ [dupDocX, dupDocY] := by
  have h : ensembleGetRelevantDocuments [none, some [dupDocX, dupDocY]] [6/10, 4/10]
      = [dupDocX] := by
    norm_num [ensembleGetRelevantDocuments, ensembleFuse, fuseEntries,
      gatherRetrieverResults, accumulateScores, scoreDocsAux, addDoc,
      pySortedByScoreDesc, insertByScoreDesc, dupDocX, dupDocY]
  refine ⟨h, ?_⟩
  rw [h]
  simp [dupDocX, dupDocY]

/-! ## Semantic cache (`services/cache_service.py`)
`SemanticCacheService.lookup`: embed the query, nearest-neighbor search with
k=1 over the cached questions, return the stored answer only when the L2
distance is strictly below `SCORE_THRESHOLD = 0.35`. The embedding model and
FAISS are external; they are modelled by an abstract distance function from
the query to each stored question, and the k=1 search returns a stored entry
at minimal distance. -/

/-- A cache entry: `page_content` is the question, `metadata["answer"]` the
stored answer (`update` always writes both). -/
structure CacheEntry where
  question : String
  answer : String
deriving DecidableEq, Repr

/-- `SemanticCacheService.SCORE_THRESHOLD = 0.35` (L2 distance). -/
def SCORE_THRESHOLD : ℚ := 35 / 100

/-- FAISS `similarity_search_with_score(query, k=1)`: the stored entry with
minimal distance to the query, together with that distance (`none` on an
empty index; earlier entry preferred on ties). -/
def nearestEntry (dist : String → ℚ) : List CacheEntry → Option (CacheEntry × ℚ)
  | [] => none
  | e :: rest =>
    match nearestEntry dist rest with
    | none => some (e, dist e.question)
    | some (e', d') =>
      if dist e.question ≤ d' then some (e, dist e.question) else some (e', d')

/-- `SemanticCacheService.lookup` (cache_service.py, lines 66-101): `none`
when the store does not exist yet or the search returns nothing; otherwise
the nearest answer iff its score is strictly below the threshold.
`dist q` gives the L2 distance from the embedded query `q` to each stored
question's embedding. -/
def cacheLookup (dist : String → ℚ) (store : Option (List CacheEntry)) : Option String :=
  match store with
  | none => none
  | some entries =>
    match nearestEntry dist entries with
    | none => none
    | some (doc, score) =>
      if score < SCORE_THRESHOLD then some doc.answer else none

theorem nearestEntry_isSome {dist : String → ℚ} {entries : List CacheEntry}
    (h : entries ≠ []) : (nearestEntry dist entries).isSome := by
  cases entries with
  | nil => exact absurd rfl h
  | cons e rest =>
    cases hr : nearestEntry dist rest with
    | none => simp [nearestEntry, hr]
    | some p =>
      by_cases hle : dist e.question ≤ p.2 <;> simp [nearestEntry, hr, hle]

theorem nearestEntry_min {dist : String → ℚ} {entries : List CacheEntry}
    {e : CacheEntry} {d : ℚ} (h : nearestEntry dist entries = some (e, d)) :
    e ∈ entries ∧ d = dist e.question ∧ ∀ e' ∈ entries, d ≤ dist e'.question := by
  induction entries generalizing e d with
  | nil => simp [nearestEntry] at h
  | cons x rest ih =>
    cases hr : nearestEntry dist rest with
    | none =>
      cases rest with
      | nil =>
        simp only [nearestEntry, Option.some.injEq, Prod.mk.injEq] at h
        obtain ⟨rfl, rfl⟩ := h
        exact ⟨by simp, rfl, by simp⟩
      | cons y ys =>
        have hsome : (nearestEntry dist (y :: ys)).isSome :=
          nearestEntry_isSome (List.cons_ne_nil y ys)
        rw [hr] at hsome
        simp at hsome
    | some p =>
      obtain ⟨e', d'⟩ := p
      rcases ih hr with ⟨hmem, hd', hmin⟩
      by_cases hle : dist x.question ≤ d'
      · simp only [nearestEntry, hr, hle, if_true, Option.some.injEq,
          Prod.mk.injEq] at h
        obtain ⟨rfl, rfl⟩ := h
        refine ⟨by simp, rfl, ?_⟩
        intro z hz
        rcases List.mem_cons.mp hz with rfl | hz
        · exact le_refl _
        · exact le_trans hle (hmin z hz)
      · simp only [nearestEntry, hr, hle, if_false, Option.some.injEq,
          Prod.mk.injEq] at h
        obtain ⟨rfl, rfl⟩ := h
        refine ⟨by simp [hmem], hd', ?_⟩
        intro z hz
        rcases List.mem_cons.mp hz with rfl | hz
        · exact le_of_not_le hle
        · exact hmin z hz

/-! ## Claim C2: strict cache threshold -/

/-- C2: on a non-empty cache the k=1 search returns a nearest entry, and the
lookup returns exactly that entry's stored answer iff its distance is
strictly below `0.35`; a distance of exactly `0.35` is a miss, `0.349` a
hit. -/
theorem cache_lookup_strict_threshold (dist : String → ℚ)
    (entries : List CacheEntry) (e : CacheEntry) (d : ℚ)
    (hne : entries ≠ [])
    (hnear : nearestEntry dist entries = some (e, d)) :
    (e ∈ entries ∧ ∀ e' ∈ entries, d ≤ dist e'.question)
    ∧ (cacheLookup dist (some entries) = some e.answer ↔ d < 35 / 100)
    ∧ (d = 35 / 100 → cacheLookup dist (some entries) = none)
    ∧ (d = 349 / 1000 → cacheLookup dist (some entries) = some e.answer) := by
  have hmin := nearestEntry_min hnear
  refine ⟨⟨hmin.1, hmin.2.2⟩, ?_, ?_, ?_⟩
  · constructor
    · intro h
      by_contra hge
      simp [cacheLookup, hnear, SCORE_THRESHOLD, hge] at h
    · intro h
      simp [cacheLookup, hnear, SCORE_THRESHOLD, h]
  · intro h
    subst h
    simp [cacheLookup, hnear, SCORE_THRESHOLD]
  · intro h
    subst h
    norm_num [cacheLookup, hnear, SCORE_THRESHOLD]

def cachedQA : CacheEntry := ⟨"什么是RAG", "RAG是检索增强生成"⟩

/-- C2 witness: a one-entry cache under a distance function returning exactly
`0.349` yields a hit with the stored answer; at exactly `0.35` the same cache
yields a miss. -/
theorem cache_lookup_strict_threshold_witness :
    cacheLookup (fun _ => 349 / 1000) (some [cachedQA]) = some cachedQA.answer
    ∧ cacheLookup (fun _ => 35 / 100) (some [cachedQA]) = none := by
  have h1 := cache_lookup_strict_threshold (fun _ => 349 / 1000) [cachedQA]
    cachedQA (349 / 1000) (by simp) rfl
  have h2 := cache_lookup_strict_threshold (fun _ => 35 / 100) [cachedQA]
    cachedQA (35 / 100) (by simp) rfl
  exact ⟨h1.2.2.2 rfl, h2.2.2.1 rfl⟩

/-! ## Ingestion pipeline (`services/ingestion_service.py`)
`IngestionService.run(force_rebuild)`: load the persisted path→hash map,
clear it on force rebuild, scan the data directory, load every file and pick
out the new/updated ones by hash comparison, exit early when nothing changed,
split, update the vector store, rebuild BM25 when the strategy needs it, and
only then persist the updated hash map. Any failure inside the `try` block is
re-raised as a single `DataProcessingError` wrapping the cause. The file
system, loader, splitter and index backends are external; they enter the
model as per-call outcomes (`none`/`false` = that call raised). -/

/-- A file discovered by `data_dir.rglob(...)` (only `is_file()` entries):
its path relative to the data dir, its SHA-256 content hash, and the outcome
of `load_single_file` on it (`none` = the loader raised). -/
structure SrcFile where
  relPath : String
  hash : String
  loadResult : Option (List Doc)
deriving DecidableEq, Repr

/-- Outcomes of the external calls `run` makes after the scan loop. -/
structure IngestConfig where
  splitResult : List Doc → Option (List Doc)
  vectorBuildOk : Bool
  vectorAddOk : Bool
  vectorReady : Bool
  bm25Ok : Bool
  needBM25 : Bool

/-- The step of `run` whose call raised (the `original_exception` that the
single `DataProcessingError` wraps). -/
inductive IngestStep where
  | loadFile (relPath : String)
  | splitDocs
  | vectorBuild
  | vectorAdd
  | bm25Build
deriving DecidableEq, Repr

/-- `DataProcessingError("Ingestion process failed.", original_exception=e)`. -/
structure DataProcessingError where
  message : String
  cause : IngestStep
deriving DecidableEq, Repr

/-- Observable outcome of one `run`: the raised error (if any), the hash map
written to `ingestion_metadata.json` (`none` = the file was not rewritten),
and the chunk/document batches passed to the vector store and BM25 builders. -/
structure IngestOutcome where
  error : Option DataProcessingError
  savedMeta : Option (List (String × String))
  vectorBuildCalls : List (List Doc)
  vectorAddCalls : List (List Doc)
  bm25Builds : List (List Doc)
deriving DecidableEq, Repr

/-- `processed_files_meta.get(rel_path)` on the dict modelled as an
insertion-ordered association list. -/
def metaLookup : List (String × String) → String → Option String
  | [], _ => none
  | (k, v) :: rest, key => if k = key then some v else metaLookup rest key

/-- `processed_files_meta[rel_path] = hash`: in-place update of an existing
key, append of a fresh one. -/
def metaInsert : List (String × String) → String → String → List (String × String)
  | [], k, v => [(k, v)]
  | (k', v') :: rest, k, v =>
    if k' = k then (k', v) :: rest else (k', v') :: metaInsert rest k v

/-- The scan loop (ingestion_service.py, lines 87-102): hash every file, load
it (all loaded docs feed BM25), and add it to the new/updated set — updating
the in-memory hash map — iff its hash differs from the stored one or a force
rebuild was requested. Returns (hash map, new/updated docs, all docs);
a raising loader aborts the loop. -/
def processFiles (force : Bool) :
    List SrcFile → List (String × String) → List Doc → List Doc →
    Except IngestStep (List (String × String) × List Doc × List Doc)
  | [], meta, newDocs, allDocs => .ok (meta, newDocs, allDocs)
  | f :: rest, meta, newDocs, allDocs =>
    match f.loadResult with
    | none => .error (.loadFile f.relPath)
    | some docs =>
      if metaLookup meta f.relPath ≠ some f.hash ∨ force = true then
        processFiles force rest (metaInsert meta f.relPath f.hash)
          (newDocs ++ docs) (allDocs ++ docs)
      else
        processFiles force rest meta newDocs (allDocs ++ docs)

def ingestionFailedMsg : String := "Ingestion process failed."

/-- Steps 4-5 of `run`: rebuild BM25 from the full corpus when the strategy
needs lexical retrieval, then save the metadata. -/
def ingestionTail (cfg : IngestConfig) (meta : List (String × String))
    (allDocs : List Doc) (vb va : List (List Doc)) : IngestOutcome :=
  if cfg.needBM25 = true then
    if cfg.bm25Ok = true then ⟨none, some meta, vb, va, [allDocs]⟩
    else ⟨some ⟨ingestionFailedMsg, .bm25Build⟩, none, vb, va, [allDocs]⟩
  else ⟨none, some meta, vb, va, []⟩

/-- `IngestionService.run` (ingestion_service.py, lines 69-139). -/
def ingestionRun (cfg : IngestConfig) (persisted : List (String × String))
    (files : List SrcFile) (forceRebuild : Bool) : IngestOutcome :=
  let meta0 := if forceRebuild = true then [] else persisted
  match processFiles forceRebuild files meta0 [] [] with
  | .error st => ⟨some ⟨ingestionFailedMsg, st⟩, none, [], [], []⟩
  | .ok (meta, newDocs, allDocs) =>
    if newDocs.isEmpty = true ∧ forceRebuild = false then
      ⟨none, none, [], [], []⟩
    else
      match cfg.splitResult newDocs with
      | none => ⟨some ⟨ingestionFailedMsg, .splitDocs⟩, none, [], [], []⟩
      | some chunks =>
        if chunks.isEmpty = true then ingestionTail cfg meta allDocs [] []
        else if forceRebuild = true ∨ cfg.vectorReady = false then
          if cfg.vectorBuildOk = true then ingestionTail cfg meta allDocs [chunks] []
          else ⟨some ⟨ingestionFailedMsg, .vectorBuild⟩, none, [chunks], [], []⟩
        else
          if cfg.vectorAddOk = true then ingestionTail cfg meta allDocs [] [chunks]
          else ⟨some ⟨ingestionFailedMsg, .vectorAdd⟩, none, [], [chunks], []⟩

section IngestionLemmas

theorem ingestionTail_cases (cfg : IngestConfig) (meta : List (String × String))
    (ad : List Doc) (vb va : List (List Doc)) :
    ingestionTail cfg meta ad vb va = ⟨none, some meta, vb, va, [ad]⟩
    ∨ ingestionTail cfg meta ad vb va
        = ⟨some ⟨ingestionFailedMsg, .bm25Build⟩, none, vb, va, [ad]⟩
    ∨ ingestionTail cfg meta ad vb va = ⟨none, some meta, vb, va, []⟩ := by
  unfold ingestionTail
  split_ifs <;> simp

theorem processFiles_error_of_bad_load (force : Bool) (files : List SrcFile) :
    ∀ (meta : List (String × String)) (nd ad : List Doc),
      (∃ f ∈ files, f.loadResult = none) →
      ∃ st, processFiles force files meta nd ad = .error st := by
  induction files with
  | nil => intro meta nd ad h; simp at h
  | cons f rest ih =>
    intro meta nd ad h
    rcases h with ⟨g, hg, hnone⟩
    rcases List.mem_cons.mp hg with rfl | hg
    · exact ⟨.loadFile g.relPath, by simp [processFiles, hnone]⟩
    · cases hload : f.loadResult with
      | none => exact ⟨.loadFile f.relPath, by simp [processFiles, hload]⟩
      | some docs =>
        by_cases hcond : metaLookup meta f.relPath ≠ some f.hash ∨ force = true
        · rcases ih (metaInsert meta f.relPath f.hash) (nd ++ docs) (ad ++ docs)
            ⟨g, hg, hnone⟩ with ⟨st, hst⟩
          refine ⟨st, ?_⟩
          simp only [processFiles, hload]
          rw [if_pos hcond]
          exact hst
        · rcases ih meta nd (ad ++ docs) ⟨g, hg, hnone⟩ with ⟨st, hst⟩
          refine ⟨st, ?_⟩
          simp only [processFiles, hload]
          rw [if_neg hcond]
          exact hst

theorem processFiles_ok_of_loads (force : Bool) (files : List SrcFile) :
    ∀ (meta : List (String × String)) (nd ad : List Doc),
      (∀ f ∈ files, f.loadResult ≠ none) →
      ∃ t, processFiles force files meta nd ad = .ok t := by
  induction files with
  | nil => intro meta nd ad _; exact ⟨(meta, nd, ad), rfl⟩
  | cons f rest ih =>
    intro meta nd ad h
    cases hload : f.loadResult with
    | none => exact absurd hload (h f (by simp))
    | some docs =>
      by_cases hcond : metaLookup meta f.relPath ≠ some f.hash ∨ force = true
      · rcases ih (metaInsert meta f.relPath f.hash) (nd ++ docs) (ad ++ docs)
          (fun g hg => h g (by simp [hg])) with ⟨t, ht⟩
        refine ⟨t, ?_⟩
        simp only [processFiles, hload]
        rw [if_pos hcond]
        exact ht
      · rcases ih meta nd (ad ++ docs) (fun g hg => h g (by simp [hg])) with ⟨t, ht⟩
        refine ⟨t, ?_⟩
        simp only [processFiles, hload]
        rw [if_neg hcond]
        exact ht

theorem processFiles_nochange (files : List SrcFile) :
    ∀ (meta : List (String × String)) (ad : List Doc),
      (∀ f ∈ files, metaLookup meta f.relPath = some f.hash) →
      (∃ st, processFiles false files meta [] ad = .error st)
      ∨ ∃ ad', processFiles false files meta [] ad = .ok (meta, [], ad') := by
  induction files with
  | nil => intro meta ad _; exact Or.inr ⟨ad, rfl⟩
  | cons f rest ih =>
    intro meta ad h
    cases hload : f.loadResult with
    | none => exact Or.inl ⟨.loadFile f.relPath, by simp [processFiles, hload]⟩
    | some docs =>
      have hcond : ¬ (metaLookup meta f.relPath ≠ some f.hash ∨ false = true) := by
        simp [h f (by simp)]
      rcases ih meta (ad ++ docs) (fun g hg => h g (by simp [hg])) with ⟨st, hst⟩ | ⟨ad', hok⟩
      · refine Or.inl ⟨st, ?_⟩
        simp only [processFiles, hload]
        rw [if_neg hcond]
        exact hst
      · refine Or.inr ⟨ad', ?_⟩
        simp only [processFiles, hload]
        rw [if_neg hcond]
        exact hok

theorem metaLookup_metaInsert_ne (m : List (String × String)) (k' v' k : String)
    (h : k' ≠ k) : metaLookup (metaInsert m k' v') k = metaLookup m k := by
  induction m with
  | nil => simp [metaInsert, metaLookup, h]
  | cons p rest ih =>
    obtain ⟨a, b⟩ := p
    by_cases hak : a = k'
    · subst hak
      simp [metaInsert, metaLookup, h]
    · by_cases hk : a = k
      · subst hk
        simp [metaInsert, metaLookup, hak]
      · simp [metaInsert, metaLookup, hak, hk, ih]

theorem processFiles_preserves_other (files : List SrcFile) (k : String)
    (hk : ∀ f ∈ files, f.relPath ≠ k) (force : Bool) :
    ∀ (meta : List (String × String)) (nd ad : List Doc)
      (meta' : List (String × String)) (nd' ad' : List Doc),
      processFiles force files meta nd ad = .ok (meta', nd', ad') →
      metaLookup meta' k = metaLookup meta k := by
  induction files with
  | nil =>
    intro meta nd ad meta' nd' ad' h
    simp only [processFiles, Except.ok.injEq, Prod.mk.injEq] at h
    rw [h.1]
  | cons f rest ih =>
    intro meta nd ad meta' nd' ad' h
    have hfk : f.relPath ≠ k := hk f (by simp)
    have hk' : ∀ g ∈ rest, g.relPath ≠ k := fun g hg => hk g (by simp [hg])
    cases hload : f.loadResult with
    | none => simp [processFiles, hload] at h
    | some docs =>
      simp only [processFiles, hload] at h
      by_cases hcond : metaLookup meta f.relPath ≠ some f.hash ∨ force = true
      · rw [if_pos hcond] at h
        rw [ih hk' _ _ _ _ _ _ h]
        exact metaLookup_metaInsert_ne meta f.relPath f.hash k hfk
      · rw [if_neg hcond] at h
        exact ih hk' _ _ _ _ _ _ h

end IngestionLemmas

/-! ## Claim C5: ingestion atomicity -/

theorem ingestionTail_error_shape (cfg : IngestConfig) (meta : List (String × String))
    (ad : List Doc) (vb va : List (List Doc)) :
    (ingestionTail cfg meta ad vb va).error = none
    ∨ ∃ c, (ingestionTail cfg meta ad vb va).error = some ⟨ingestionFailedMsg, c⟩
        ∧ (ingestionTail cfg meta ad vb va).savedMeta = none := by
  unfold ingestionTail
  split_ifs <;> simp

/-- Every run either raises no error, or raises a single
`DataProcessingError("Ingestion process failed.", cause)` and does not rewrite
the metadata file. -/
theorem ingestionRun_error_shape (cfg : IngestConfig)
    (persisted : List (String × String)) (files : List SrcFile) (force : Bool) :
    (ingestionRun cfg persisted files force).error = none
    ∨ ∃ c, (ingestionRun cfg persisted files force).error
          = some ⟨ingestionFailedMsg, c⟩
        ∧ (ingestionRun cfg persisted files force).savedMeta = none := by
  simp only [ingestionRun]
  cases hpf : processFiles force files (if force = true then [] else persisted) [] [] with
  | error st => right; exact ⟨st, rfl, rfl⟩
  | ok t =>
    obtain ⟨meta, nd, ad⟩ := t
    dsimp only
    split
    · left; rfl
    · cases hsp : cfg.splitResult nd with
      | none => right; exact ⟨.splitDocs, rfl, rfl⟩
      | some chunks =>
        dsimp only
        split_ifs
        · exact ingestionTail_error_shape cfg meta ad [] []
        · exact ingestionTail_error_shape cfg meta ad [chunks] []
        · right; exact ⟨.vectorBuild, rfl, rfl⟩
        · exact ingestionTail_error_shape cfg meta ad [] [chunks]
        · right; exact ⟨.vectorAdd, rfl, rfl⟩

/-- C5: the metadata file is rewritten only on a fully successful run; when
any step raises (in particular when any file loader raises), the run yields a
single `DataProcessingError` wrapping the cause and the metadata file is not
rewritten. -/
theorem ingestion_atomic_commit (cfg : IngestConfig)
    (persisted : List (String × String)) (files : List SrcFile) (force : Bool) :
    ((ingestionRun cfg persisted files force).savedMeta.isSome →
      (ingestionRun cfg persisted files force).error = none)
    ∧ (∀ e, (ingestionRun cfg persisted files force).error = some e →
        (ingestionRun cfg persisted files force).savedMeta = none
        ∧ e.message = ingestionFailedMsg)
    ∧ ((∃ f ∈ files, f.loadResult = none) →
        ((ingestionRun cfg persisted files force).error).isSome) := by
  have hshape := ingestionRun_error_shape cfg persisted files force
  refine ⟨?_, ?_, ?_⟩
  · intro hsome
    rcases hshape with h | ⟨c, herr, hsaved⟩
    · exact h
    · rw [hsaved] at hsome
      simp at hsome
  · intro e he
    rcases hshape with h | ⟨c, herr, hsaved⟩
    · rw [h] at he
      simp at he
    · rw [herr] at he
      injection he with he2
      refine ⟨hsaved, ?_⟩
      rw [← he2]
  · intro hbad
    rcases processFiles_error_of_bad_load force files
      (if force = true then [] else persisted) [] [] hbad with ⟨st, hst⟩
    simp only [ingestionRun, hst]
    simp

/-! ## Claim C6: no-change idempotence -/

/-- C6: with `force_rebuild = False` and every discovered file's hash equal to
its persisted hash, the run rewrites no metadata, performs no vector store
build or add, rebuilds no BM25 index — and, when every loader succeeds,
returns without error (the early exit at lines 104-106). -/
theorem ingestion_nochange_idempotent (cfg : IngestConfig)
    (persisted : List (String × String)) (files : List SrcFile)
    (hmatch : ∀ f ∈ files, metaLookup persisted f.relPath = some f.hash) :
    (ingestionRun cfg persisted files false).savedMeta = none
    ∧ (ingestionRun cfg persisted files false).vectorBuildCalls = []
    ∧ (ingestionRun cfg persisted files false).vectorAddCalls = []
    ∧ (ingestionRun cfg persisted files false).bm25Builds = []
    ∧ ((∀ f ∈ files, f.loadResult ≠ none) →
        (ingestionRun cfg persisted files false).error = none) := by
  have hred : (if false = true then [] else persisted) = persisted := rfl
  rcases processFiles_nochange files persisted [] hmatch with ⟨st, hst⟩ | ⟨ad', hok⟩
  · have hrun : ingestionRun cfg persisted files false
        = ⟨some ⟨ingestionFailedMsg, st⟩, none, [], [], []⟩ := by
      simp only [ingestionRun, hred, hst]
    refine ⟨by simp [hrun], by simp [hrun], by simp [hrun], by simp [hrun], ?_⟩
    intro hloads
    rcases processFiles_ok_of_loads false files persisted [] [] hloads with ⟨t, ht⟩
    rw [ht] at hst
    cases hst
  · have hrun : ingestionRun cfg persisted files false = ⟨none, none, [], [], []⟩ := by
      simp only [ingestionRun, hred, hok]
      simp
    simp [hrun]

def nochangeDoc : Doc := ⟨"hello world", "a.txt"⟩

def nochangeFile : SrcFile := ⟨"a.txt", "h2", some [nochangeDoc]⟩

def cfgAllOk : IngestConfig :=
  ⟨fun docs => some docs, true, true, true, true, true⟩

/-- C6 witness: a second run over a single unchanged file performs zero index
writes and no metadata rewrite, and returns without error. -/
theorem ingestion_nochange_idempotent_witness :
    (∀ f ∈ [nochangeFile], metaLookup [("a.txt", "h2")] f.relPath = some f.hash)
    ∧ (ingestionRun cfgAllOk [("a.txt", "h2")] [nochangeFile] false).savedMeta = none
    ∧ (ingestionRun cfgAllOk [("a.txt", "h2")] [nochangeFile] false).vectorBuildCalls = []
    ∧ (ingestionRun cfgAllOk [("a.txt", "h2")] [nochangeFile] false).vectorAddCalls = []
    ∧ (ingestionRun cfgAllOk [("a.txt", "h2")] [nochangeFile] false).bm25Builds = []
    ∧ (ingestionRun cfgAllOk [("a.txt", "h2")] [nochangeFile] false).error = none := by
  have hmatch : ∀ f ∈ [nochangeFile], metaLookup [("a.txt", "h2")] f.relPath = some f.hash := by
    intro f hf
    simp only [List.mem_singleton] at hf
    subst hf
    rfl
  have h := ingestion_nochange_idempotent cfgAllOk [("a.txt", "h2")] [nochangeFile] hmatch
  refine ⟨hmatch, h.1, h.2.1, h.2.2.1, h.2.2.2.1, h.2.2.2.2 ?_⟩
  intro f hf
  simp only [List.mem_singleton] at hf
  subst hf
  simp [nochangeFile]

/-- C5 witness: a run over one changed file with all backends succeeding
rewrites the metadata and reports no error (conjunct 1); a run whose loader
raises yields the wrapping `DataProcessingError` and no metadata write
(conjuncts 2-3). -/
def changedFile : SrcFile := ⟨"a.txt", "h3", some [nochangeDoc]⟩

def badLoadFile : SrcFile := ⟨"b.txt", "h9", none⟩

theorem ingestion_atomic_commit_witness :
    ((ingestionRun cfgAllOk [("a.txt", "h2")] [changedFile] false).savedMeta).isSome
    ∧ (ingestionRun cfgAllOk [("a.txt", "h2")] [changedFile] false).error = none
    ∧ (∃ f ∈ [badLoadFile], f.loadResult = none)
    ∧ ((ingestionRun cfgAllOk [] [badLoadFile] false).error).isSome
    ∧ (ingestionRun cfgAllOk [] [badLoadFile] false).savedMeta = none
    ∧ (∀ e, (ingestionRun cfgAllOk [] [badLoadFile] false).error = some e →
        e.message = ingestionFailedMsg) := by
  have h1 := ingestion_atomic_commit cfgAllOk [("a.txt", "h2")] [changedFile] false
  have h2 := ingestion_atomic_commit cfgAllOk [] [badLoadFile] false
  have hsome : ((ingestionRun cfgAllOk [("a.txt", "h2")] [changedFile] false).savedMeta).isSome := by
    decide
  have hbad : ∃ f ∈ [badLoadFile], f.loadResult = none := ⟨badLoadFile, by simp, rfl⟩
  have herr := h2.2.2 hbad
  refine ⟨hsome, h1.1 hsome, hbad, herr, ?_, ?_⟩
  · cases he : (ingestionRun cfgAllOk [] [badLoadFile] false).error with
    | none => rw [he] at herr; cases herr
    | some e => exact (h2.2.1 e he).1
  · intro e he
    exact (h2.2.1 e he).2

/-! ## Claim C9: stale metadata entries -/

/-- Inversion: if a run rewrote the metadata file with map `m`, the scan loop
succeeded and produced exactly `m`. -/
theorem ingestionRun_savedMeta_inv (cfg : IngestConfig)
    (persisted : List (String × String)) (files : List SrcFile) (force : Bool)
    (m : List (String × String))
    (h : (ingestionRun cfg persisted files force).savedMeta = some m) :
    ∃ nd ad, processFiles force files (if force = true then [] else persisted) [] []
        = .ok (m, nd, ad) := by
  revert h
  simp only [ingestionRun]
  cases hpf : processFiles force files (if force = true then [] else persisted) [] [] with
  | error st => intro h; cases h
  | ok t =>
    obtain ⟨meta, nd, ad⟩ := t
    dsimp only
    split
    · intro h; cases h
    · cases hsp : cfg.splitResult nd with
      | none => intro h; cases h
      | some chunks =>
        dsimp only
        have htail : ∀ vb va,
            (ingestionTail cfg meta ad vb va).savedMeta = some m → meta = m := by
          intro vb va
          unfold ingestionTail
          split_ifs <;> intro h <;> simpa using h
        split_ifs
        · intro h; exact ⟨nd, ad, by rw [htail _ _ h]⟩
        · intro h; exact ⟨nd, ad, by rw [htail _ _ h]⟩
        · intro h; cases h
        · intro h; exact ⟨nd, ad, by rw [htail _ _ h]⟩
        · intro h; cases h

/-- C9 (amended): with `force_rebuild = False`, every persisted entry whose
path is not among the discovered files is still present (with its hash) after
the run, whether or not the run rewrote the metadata file. With
`force_rebuild = True` the map is cleared first, so stale entries are pruned
— see the counterexample. -/
theorem ingestion_stale_entries_kept (cfg : IngestConfig)
    (persisted : List (String × String)) (files : List SrcFile) (k v : String)
    (hstale : metaLookup persisted k = some v)
    (hgone : ∀ f ∈ files, f.relPath ≠ k) :
    metaLookup (((ingestionRun cfg persisted files false).savedMeta).getD persisted) k
      = some v := by
  cases hsv : (ingestionRun cfg persisted files false).savedMeta with
  | none => simpa using hstale
  | some m =>
    rcases ingestionRun_savedMeta_inv cfg persisted files false m hsv with ⟨nd, ad, hok⟩
    have hred : (if false = true then [] else persisted) = persisted := rfl
    rw [hred] at hok
    have := processFiles_preserves_other files k hgone false persisted [] [] m nd ad hok
    simpa [this] using hstale

def staleMeta : List (String × String) := [("old.txt", "h1"), ("a.txt", "h0")]

/-- C9 witness: with `forceRebuild = false`, a run that reprocesses a changed
file still keeps the stale entry for the deleted `old.txt`. -/
theorem ingestion_stale_entries_kept_witness :
    metaLookup staleMeta "old.txt" = some "h1"
    ∧ (∀ f ∈ [changedFile], f.relPath ≠ "old.txt")
    ∧ metaLookup
        (((ingestionRun cfgAllOk staleMeta [changedFile] false).savedMeta).getD staleMeta)
        "old.txt" = some "h1" := by
  have hstale : metaLookup staleMeta "old.txt" = some "h1" := rfl
  have hgone : ∀ f ∈ [changedFile], f.relPath ≠ "old.txt" := by decide
  exact ⟨hstale, hgone,
    ingestion_stale_entries_kept cfgAllOk staleMeta [changedFile] "old.txt" "h1" hstale hgone⟩

/-- C9 counterexample: with `forceRebuild = true` the claim fails: the run
succeeds, rewrites the metadata file, and the stale entry for the deleted
`old.txt` is gone (`processed_files_meta.clear()` at line 81 wipes it before
the scan). -/
theorem ingestion_stale_entries_counterexample :
    metaLookup staleMeta "old.txt" = some "h1"
    ∧ (ingestionRun cfgAllOk staleMeta [changedFile] true).error = none
    ∧ (ingestionRun cfgAllOk staleMeta [changedFile] true).savedMeta
        = some [("a.txt", "h3")]
    ∧ metaLookup
        (((ingestionRun cfgAllOk staleMeta [changedFile] true).savedMeta).getD staleMeta)
        "old.txt" = none := by
  refine ⟨rfl, ?_, ?_, ?_⟩ <;> decide

/-! ## Query orchestration (`services/query_service.py`)
`ask` and `ask_stream` are modelled as functions from the outcomes of their
awaited sub-calls (an environment record; `Except.error` = that call raised)
to their observable result: for `ask`, the returned `QueryResponse`; for
`ask_stream`, the ordered trace of performed actions and emitted events. -/

/-- An event yielded by `ask_stream`
(`{"type": "status"|"sources"|"token"|"error", "content": ...}`); the
`sources` payload is modelled by the document list. -/
inductive StreamEvent where
  | status (content : String)
  | sources (content : List Doc)
  | token (content : String)
  | error (content : String)
deriving DecidableEq, Repr

/-- One step of an `ask_stream` execution, in program order: either an
awaited sub-call or a yielded event. -/
inductive StreamAction where
  | cacheLookupAct
  | historyLoad
  | rewriteCall
  | retrieveCall
  | rerankCall
  | generateCall
  | historyAdd (sessionId userQuery aiAnswer : String)
  | cacheUpdate (q a : String)
  | emit (e : StreamEvent)
deriving DecidableEq, Repr

/-- Outcomes of the calls `ask_stream` awaits. `genTokens` are the tokens the
generation chain streams before either finishing (`genErr = none`) or raising
mid-stream (`genErr = some e`). -/
structure StreamEnv where
  query : String
  sessionId : String
  hasCache : Bool
  lookupResult : Option String
  histLoad : Except String (List String)
  rewriteResult : Except String String
  retrieveResult : Except String (List Doc)
  hasReranker : Bool
  rerankResult : Except String (List (Doc × ℚ))
  rerankTopK : ℕ
  genTokens : List String
  genErr : Option String

def cacheHitStatusMsg : String := "⚡️ 命中语义缓存 (0ms)"

def understandingStatusMsg : String := "正在理解问题..."

def searchingStatusMsg : String := "正在搜索知识库..."

def thinkingStatusMsg : String := "正在思考..."

/-- `cached_answer[i:i+5]` for `i in range(0, len(cached_answer), 5)`:
the code points of the answer in chunks of `chunk_size = 5` (the last chunk
may be shorter). -/
def chunkChars : List Char → List (List Char)
  | [] => []
  | a :: b :: c :: d :: e :: rest => [a, b, c, d, e] :: chunkChars rest
  | l => [l]

def chunkString (s : String) : List String :=
  (chunkChars s.data).map (fun cs => String.mk cs)

/-- Left-fold concatenation of the yielded token contents. -/
def concatTokens (ts : List String) : String := ts.foldl (fun a b => a ++ b) ""

/-- `QueryService._rewrite_query`: skipped entirely on empty history; on a
raising chain the original query is returned (the internal `try/except`), so
a rewrite failure never escapes. Returns the search query and the chain
invocations performed. -/
def rewriteQueryStream (env : StreamEnv) (history : List String) :
    String × List StreamAction :=
  if history.isEmpty then (env.query, [])
  else
    match env.rewriteResult with
    | .ok r => (r, [.rewriteCall])
    | .error _ => (env.query, [.rewriteCall])

/-- `QueryService._retrieve_and_rerank`: retrieve, then rerank and truncate to
`top_k` only when a reranker is configured and retrieval was non-empty,
otherwise pass retrieval order through with score `1.0`. A raising call
propagates. -/
def retrieveAndRerankStream (env : StreamEnv) :
    Except String (List (Doc × ℚ)) × List StreamAction :=
  match env.retrieveResult with
  | .error e => (.error e, [.retrieveCall])
  | .ok docs =>
    if env.hasReranker = true ∧ docs ≠ [] then
      match env.rerankResult with
      | .error e => (.error e, [.retrieveCall, .rerankCall])
      | .ok reranked => (.ok (reranked.take env.rerankTopK), [.retrieveCall, .rerankCall])
    else (.ok (docs.map (fun d => (d, (1 : ℚ)))), [.retrieveCall])

/-- The cache-miss tail of `ask_stream` (query_service.py, lines 198-248):
history load, status(understanding), rewrite, status(searching),
retrieve+rerank, sources, status(thinking), streamed tokens, then — only for
a non-empty answer — history append and (when a cache service is configured)
cache update. Any raising call yields one `error` event and terminates. -/
def askStreamMiss (env : StreamEnv) : List StreamAction :=
  match env.histLoad with
  | .error e => [.historyLoad, .emit (.error e)]
  | .ok history =>
    [.historyLoad, .emit (.status understandingStatusMsg)]
    ++ (rewriteQueryStream env history).2
    ++ [.emit (.status searchingStatusMsg)]
    ++ match retrieveAndRerankStream env with
       | (.error e, acts) => acts ++ [.emit (.error e)]
       | (.ok sourceDocs, acts) =>
         acts ++ [.emit (.sources (sourceDocs.map (fun p => p.1))),
                  .emit (.status thinkingStatusMsg), .generateCall]
         ++ env.genTokens.map (fun t => .emit (.token t))
         ++ match env.genErr with
            | some e => [.emit (.error e)]
            | none =>
              if concatTokens env.genTokens = "" then []
              else [.historyAdd env.sessionId env.query (concatTokens env.genTokens)]
                ++ (if env.hasCache = true then
                      [.cacheUpdate env.query (concatTokens env.genTokens)]
                    else [])

/-- `QueryService.ask_stream` (query_service.py, lines 165-248). The cache
lookup comes first, before anything is yielded; `if cached_answer:` is Python
truthiness, so `None` and the empty string both fall through to the miss
path; on a hit: status(cache-hit), the answer in 5-character token chunks,
history append, stream end. -/
def askStream (env : StreamEnv) : List StreamAction :=
  let pre : List StreamAction := if env.hasCache = true then [.cacheLookupAct] else []
  let cached : Option String := if env.hasCache = true then env.lookupResult else none
  match cached with
  | some a =>
    if a = "" then pre ++ askStreamMiss env
    else
      pre ++ [.emit (.status cacheHitStatusMsg)]
        ++ (chunkString a).map (fun c => .emit (.token c))
        ++ [.historyAdd env.sessionId env.query a]
  | none => pre ++ askStreamMiss env

/-- The event a trace step yields, if any. -/
def actionEvent : StreamAction → Option StreamEvent
  | .emit e => some e
  | _ => none

/-- The sequence of events an `ask_stream` trace emits. -/
def eventsOf (t : List StreamAction) : List StreamEvent := t.filterMap actionEvent

/-- A yielded `status` event. -/
def isStatusEmit : StreamAction → Bool
  | .emit (.status _) => true
  | _ => false

section StreamLemmas

theorem actionEvent_emit (e : StreamEvent) : actionEvent (.emit e) = some e := rfl

theorem actionEvent_cacheLookupAct : actionEvent .cacheLookupAct = none := rfl

theorem actionEvent_historyLoad : actionEvent .historyLoad = none := rfl

theorem actionEvent_historyAdd (s q a : String) :
    actionEvent (.historyAdd s q a) = none := rfl

theorem chunkChars_flatten (l : List Char) : (chunkChars l).flatten = l := by
  induction l using chunkChars.induct with
  | case1 => rfl
  | case2 a b c d e rest ih => simp [chunkChars, ih]
  | case3 l h1 h2 => simp [chunkChars]

theorem mk_append (a b : List Char) :
    String.mk a ++ String.mk b = String.mk (a ++ b) := rfl

theorem concat_mk (ls : List (List Char)) :
    ∀ acc : List Char,
      (ls.map (fun cs => String.mk cs)).foldl (fun a b => a ++ b) (String.mk acc)
        = String.mk (acc ++ ls.flatten) := by
  induction ls with
  | nil => intro acc; simp
  | cons c rest ih => intro acc; simp [List.foldl_cons, mk_append, ih]

/-- The token chunks of the cached answer concatenate back to it. -/
theorem concatTokens_chunkString (s : String) : concatTokens (chunkString s) = s := by
  have h := concat_mk (chunkChars s.data) []
  simp only [List.nil_append] at h
  show (chunkString s).foldl (fun a b => a ++ b) "" = s
  have h0 : ("" : String) = String.mk [] := rfl
  rw [chunkString, h0, h, chunkChars_flatten]

end StreamLemmas

/-! ## Claim C8: streaming cache-hit skip -/

/-- C8 (amended): when the cache lookup returns a non-empty answer (Python
truthiness: an empty-string answer is treated as a miss, see the
counterexample), the trace is exactly lookup, one cache-hit `status` event,
the answer in fixed 5-character `token` chunks whose contents concatenate to
the cached answer, and the history append of (original query, cached answer);
no `sources` event is emitted and neither the retriever, the reranker nor the
generation chain is invoked. -/
theorem ask_stream_cache_hit_skip (env : StreamEnv) (a : String)
    (hc : env.hasCache = true) (hl : env.lookupResult = some a) (hne : a ≠ "") :
    askStream env
      = [.cacheLookupAct, .emit (.status cacheHitStatusMsg)]
        ++ (chunkString a).map (fun c => .emit (.token c))
        ++ [.historyAdd env.sessionId env.query a]
    ∧ eventsOf (askStream env)
        = .status cacheHitStatusMsg :: (chunkString a).map (fun c => .token c)
    ∧ concatTokens (chunkString a) = a
    ∧ (∀ ds, StreamAction.emit (.sources ds) ∉ askStream env)
    ∧ .retrieveCall ∉ askStream env
    ∧ .rerankCall ∉ askStream env
    ∧ .generateCall ∉ askStream env
    ∧ .historyAdd env.sessionId env.query a ∈ askStream env := by
  have htr : askStream env
      = [.cacheLookupAct, .emit (.status cacheHitStatusMsg)]
        ++ (chunkString a).map (fun c => .emit (.token c))
        ++ [.historyAdd env.sessionId env.query a] := by
    simp [askStream, hc, hl, hne]
  refine ⟨htr, ?_, concatTokens_chunkString a, ?_, ?_, ?_, ?_, ?_⟩
  · rw [htr]
    simp only [eventsOf, List.filterMap_append, List.filterMap_cons, actionEvent,
      List.filterMap_map, List.filterMap_nil]
    rw [show actionEvent ∘ (fun c => StreamAction.emit (StreamEvent.token c))
        = fun c => some (StreamEvent.token c) from rfl]
    rw [List.filterMap_eq_map_iff_forall_eq_some.mpr (fun x _ => rfl)]
    simp
  · intro ds
    rw [htr]
    simp
  · rw [htr]; simp
  · rw [htr]; simp
  · rw [htr]; simp
  · rw [htr]; simp

def streamEnvHit : StreamEnv :=
  { query := "什么是RAG", sessionId := "s1", hasCache := true,
    lookupResult := some "Answer7", histLoad := .ok [],
    rewriteResult := .ok "什么是RAG", retrieveResult := .ok [],
    hasReranker := false, rerankResult := .ok [], rerankTopK := 3,
    genTokens := [], genErr := none }

/-- C8 witness: a hit on a 7-character cached answer streams it as a
5-character chunk and a 2-character chunk after the one status event, then
appends the history turn; no retrieval happens. -/
theorem ask_stream_cache_hit_skip_witness :
    streamEnvHit.hasCache = true
    ∧ streamEnvHit.lookupResult = some "Answer7"
    ∧ "Answer7" ≠ ""
    ∧ askStream streamEnvHit
        = [.cacheLookupAct, .emit (.status cacheHitStatusMsg),
           .emit (.token "Answe"), .emit (.token "r7"),
           .historyAdd "s1" "什么是RAG" "Answer7"]
    ∧ concatTokens (chunkString "Answer7") = "Answer7"
    ∧ .retrieveCall ∉ askStream streamEnvHit := by
  have h := ask_stream_cache_hit_skip streamEnvHit "Answer7" rfl rfl (by decide)
  refine ⟨rfl, rfl, by decide, ?_, h.2.2.1, h.2.2.2.2.1⟩
  rw [h.1]
  rfl

def streamEnvEmptyHit : StreamEnv :=
  { query := "q1", sessionId := "s1", hasCache := true, lookupResult := some "",
    histLoad := .ok [], rewriteResult := .ok "q1",
    retrieveResult := .ok [⟨"ctx", "kb"⟩], hasReranker := false,
    rerankResult := .ok [], rerankTopK := 3,
    genTokens := ["An", "swer"], genErr := none }

/-- C8 counterexample: the claim as stated fails when the lookup returns the
empty string: `if cached_answer:` is falsy on `""`, so the code takes the full
RAG path — the retriever and the generation chain run and a `sources` event is
emitted, unlike what the claim requires of every invocation whose lookup
returned an answer. -/
theorem ask_stream_cache_hit_skip_counterexample :
    streamEnvEmptyHit.lookupResult = some ""
    ∧ StreamAction.retrieveCall ∈ askStream streamEnvEmptyHit
    ∧ StreamAction.emit (.sources [⟨"ctx", "kb"⟩]) ∈ askStream streamEnvEmptyHit
    ∧ StreamAction.generateCall ∈ askStream streamEnvEmptyHit := by
  refine ⟨rfl, ?_, ?_, ?_⟩ <;> decide

/-! ## Claim C3: cache lookup versus first emitted event -/

/-- C3 (amended): whenever a cache service is configured, the cache lookup is
the very first action of `ask_stream` — it is performed before any event is
emitted (the converse of the claim); on a miss whose history load succeeds,
the first emitted event is the rewriting status event. -/
theorem ask_stream_lookup_before_any_event (env : StreamEnv)
    (hc : env.hasCache = true) :
    (askStream env).head? = some .cacheLookupAct
    ∧ (env.lookupResult = none →
        ∀ h, env.histLoad = .ok h →
          (eventsOf (askStream env)).head? = some (.status understandingStatusMsg)) := by
  constructor
  · simp only [askStream, hc]
    cases hl : env.lookupResult with
    | none => simp
    | some a =>
      by_cases ha : a = "" <;> simp [ha]
  · intro hl h hh
    simp only [askStream, hc, hl]
    simp only [askStreamMiss, hh]
    simp [eventsOf, actionEvent]

def streamEnvMiss : StreamEnv :=
  { query := "q2", sessionId := "s2", hasCache := true, lookupResult := none,
    histLoad := .ok ["prior turn"], rewriteResult := .ok "q2 rewritten",
    retrieveResult := .ok [⟨"ctx", "kb"⟩], hasReranker := false,
    rerankResult := .ok [], rerankTopK := 3, genTokens := ["ok"], genErr := none }

/-- C3 witness: on a concrete cache miss the trace starts with the lookup and
the first emitted event is the rewriting status event. -/
theorem ask_stream_lookup_before_any_event_witness :
    streamEnvMiss.hasCache = true
    ∧ (askStream streamEnvMiss).head? = some .cacheLookupAct
    ∧ (eventsOf (askStream streamEnvMiss)).head?
        = some (.status understandingStatusMsg) := by
  have h := ask_stream_lookup_before_any_event streamEnvMiss rfl
  exact ⟨rfl, h.1, h.2 rfl ["prior turn"] rfl⟩

/-- C3 counterexample: the claim as stated is false — on this invocation the
cache lookup is the head of the trace, and no status event (no emitted event
at all) precedes it: there are no indices `i < j` with a status emit at `i`
and the lookup at `j`. -/
theorem ask_stream_status_before_lookup_counterexample :
    (askStream streamEnvMiss).head? = some .cacheLookupAct
    ∧ (∃ i : Fin (askStream streamEnvMiss).length,
        isStatusEmit ((askStream streamEnvMiss).get i) = true)
    ∧ ¬ ∃ j i : Fin (askStream streamEnvMiss).length, (i : ℕ) < (j : ℕ)
        ∧ (askStream streamEnvMiss).get j = .cacheLookupAct
        ∧ isStatusEmit ((askStream streamEnvMiss).get i) = true := by
  refine ⟨rfl, ?_, ?_⟩ <;> decide

/-! ## Claim C7: the blocking `ask` never raises -/

/-- Outcomes of the calls `QueryService.ask` awaits
(`Except.error e` = that call raised with text `e`). -/
structure AskEnv where
  query : String
  sessionId : String
  histLoad : Except String (List String)
  rewriteResult : Except String String
  retrieveResult : Except String (List Doc)
  hasReranker : Bool
  rerankResult : Except String (List (Doc × ℚ))
  rerankTopK : ℕ
  genResult : Except String String
  addTurnResult : Except String Unit

/-- `core/query_models.py`: `QueryResponse(answer, source_documents=[],
session_id=None, error=None)`; source documents carry their score. -/
structure QueryResponse where
  session_id : String
  answer : String
  source_documents : List (Doc × ℚ)
  error : Option String
deriving DecidableEq, Repr

/-- The `except` clause of `ask` (query_service.py, lines 161-163):
`QueryResponse(session_id=session_id, answer="Server Error", error=str(e))`. -/
def serverErrorResponse (env : AskEnv) (e : String) : QueryResponse :=
  ⟨env.sessionId, "Server Error", [], some e⟩

/-- `_rewrite_query` as called from `ask`: identity on empty history, and the
original query on a raising chain (internal `try/except`). -/
def askRewrite (env : AskEnv) (history : List String) : String :=
  if history.isEmpty then env.query
  else
    match env.rewriteResult with
    | .ok r => r
    | .error _ => env.query

/-- `_retrieve_and_rerank` as called from `ask` (same logic as the streaming
variant, without the trace). -/
def askRetrieveRerank (env : AskEnv) : Except String (List (Doc × ℚ)) :=
  match env.retrieveResult with
  | .error e => .error e
  | .ok docs =>
    if env.hasReranker = true ∧ docs ≠ [] then
      match env.rerankResult with
      | .error e => .error e
      | .ok reranked => .ok (reranked.take env.rerankTopK)
    else .ok (docs.map (fun d => (d, (1 : ℚ))))

/-- `QueryService.ask` (query_service.py, lines 132-163): history load,
rewrite, retrieve+rerank, generate, history append, all inside one
`try/except` whose handler returns a `QueryResponse` with the error text and
the fallback answer — `ask` is total: it returns a response, never an
exception. -/
def ask (env : AskEnv) : QueryResponse :=
  match env.histLoad with
  | .error e => serverErrorResponse env e
  | .ok history =>
    let _searchQuery := askRewrite env history
    match askRetrieveRerank env with
    | .error e => serverErrorResponse env e
    | .ok sourceDocs =>
      match env.genResult with
      | .error e => serverErrorResponse env e
      | .ok answer =>
        match env.addTurnResult with
        | .error e => serverErrorResponse env e
        | .ok _ => ⟨env.sessionId, answer, sourceDocs, none⟩

/-- C7: for every outcome of every step, `ask` returns a `QueryResponse`
(totality is the type of `ask`); the response either carries the generated
answer with `error = none`, or carries `error = some e` — where `e` is the
text of the step that raised — together with the fallback answer
`"Server Error"`. -/
theorem ask_never_raises (env : AskEnv) :
    ((ask env).error = none
      ∧ ∃ answer, env.genResult = .ok answer ∧ (ask env).answer = answer
        ∧ (ask env).session_id = env.sessionId)
    ∨ (∃ e, (ask env).error = some e
        ∧ (ask env).answer = "Server Error"
        ∧ (ask env).session_id = env.sessionId
        ∧ (env.histLoad = .error e ∨ askRetrieveRerank env = .error e
            ∨ env.genResult = .error e ∨ env.addTurnResult = .error e)) := by
  unfold ask
  cases hh : env.histLoad with
  | error e => exact Or.inr ⟨e, rfl, rfl, rfl, Or.inl rfl⟩
  | ok history =>
    cases hr : askRetrieveRerank env with
    | error e => exact Or.inr ⟨e, rfl, rfl, rfl, Or.inr (Or.inl rfl)⟩
    | ok sourceDocs =>
      cases hg : env.genResult with
      | error e => exact Or.inr ⟨e, rfl, rfl, rfl, Or.inr (Or.inr (Or.inl rfl))⟩
      | ok answer =>
        cases ha : env.addTurnResult with
        | error e => exact Or.inr ⟨e, rfl, rfl, rfl, Or.inr (Or.inr (Or.inr rfl))⟩
        | ok u => exact Or.inl ⟨rfl, answer, rfl, rfl, rfl⟩

/-! ## Claim C10: HybridRetriever construction precondition -/

/-- `core/exceptions.py`: `InitializationError(component, message, cause)`. -/
structure InitializationError where
  component : String
  message : String
deriving DecidableEq, Repr

def hybridInitLenMsg : String :=
  "Number of sub-retrievers and weights must match and be at least 2."

/-- `HybridRetriever.__init__` validation (hybrid.py, lines 32-46): raise
`InitializationError` when the sub-retriever and weight counts differ or
there are fewer than 2 sub-retrievers; otherwise construct the local
`EnsembleRetriever` (whose own failure, `ensembleOk = false`, is wrapped in a
second `InitializationError`). On an error no retriever is constructed: the
result is `Except.error`, carrying no retriever. -/
def hybridRetrieverInit (subRetrievers : List String) (weights : List ℚ)
    (ensembleOk : Bool) : Except InitializationError Unit :=
  if subRetrievers.length ≠ weights.length ∨ subRetrievers.length < 2 then
    .error ⟨"HybridRetriever", hybridInitLenMsg⟩
  else if ensembleOk = true then .ok ()
  else .error ⟨"HybridRetriever", "Failed to create EnsembleRetriever"⟩

/-- C10: construction fails with an `InitializationError` unless the counts
match AND there are at least 2 sub-retrievers; in particular a single
retriever with a single matching weight is rejected. -/
theorem hybrid_init_validation (subRetrievers : List String) (weights : List ℚ)
    (ensembleOk : Bool) :
    (¬ (subRetrievers.length = weights.length ∧ 2 ≤ subRetrievers.length) →
      hybridRetrieverInit subRetrievers weights ensembleOk
        = .error ⟨"HybridRetriever", hybridInitLenMsg⟩)
    ∧ (∀ e, hybridRetrieverInit subRetrievers weights ensembleOk = .error e →
        e.component = "HybridRetriever")
    ∧ (subRetrievers.length = 1 → weights.length = 1 →
        hybridRetrieverInit subRetrievers weights ensembleOk
          = .error ⟨"HybridRetriever", hybridInitLenMsg⟩) := by
  refine ⟨?_, ?_, ?_⟩
  · intro hn
    unfold hybridRetrieverInit
    rw [if_pos (by omega)]
  · intro e he
    unfold hybridRetrieverInit at he
    split_ifs at he
    all_goals first
      | exact Except.noConfusion he
      | (injection he with h2; rw [← h2])
  · intro h1 h2
    unfold hybridRetrieverInit
    rw [if_pos (by omega)]

/-- C10 witness: one sub-retriever with one (matching) weight is rejected. -/
theorem hybrid_init_validation_witness :
    ¬ ((["vector"] : List String).length = ([1/2] : List ℚ).length
        ∧ 2 ≤ (["vector"] : List String).length)
    ∧ (["vector"] : List String).length = 1
    ∧ ([1/2] : List ℚ).length = 1
    ∧ hybridRetrieverInit ["vector"] [1/2] true
        = .error ⟨"HybridRetriever", hybridInitLenMsg⟩ := by
  exact ⟨by simp, rfl, rfl, (hybrid_init_validation ["vector"] [1/2] true).2.2 rfl rfl⟩
